import Mathlib

/-!
Verification development for the Tautulli history viewer analytics core
(`tautulli_history_viewer.py`).

The Python source is a pandas/streamlit script.  We embed its analytics
pipeline shallowly:

* missing / unparseable values (`NaT`, `NaN`) become `Option`;
* pandas comparisons against `NaT`/`NaN`, which yield `False` elementwise,
  become `Bool`-valued helpers that return `false` on `none`;
* epoch timestamps are integers (seconds), durations are rationals
  (minutes, possibly fractional and possibly negative);
* `groupby` sorts the distinct non-null keys ascending and aggregates
  per key (`count` counts non-null values of the counted column, `sum`
  skips nulls);
* `reindex` looks each requested label up in the aggregate, yielding
  `none` (pandas `NaN`) for labels with no group.

The ranked views (`sort_values(by="views", ascending=False)`, lines 116
and 129) are not modelled: the default `kind="quicksort"` leaves the
relative order of tied rows unspecified, so no executable definition can
faithfully represent it.
-/

/-- One raw CSV row as read by `pd.read_csv` (line 9).  A missing
`rating_key` cell is a pandas `NaN`, hence `Option`; the epoch fields are
kept as raw text to be parsed by the normalizer. -/
structure RawRow where
  rating_key : Option String
  username : String
  media_type : String
  title : String
  parent_title : String
  grandparent_title : String
  started : String
  stopped : String
deriving DecidableEq, Repr

/-- One normalized row after `load_data` (lines 8–15): parsed instants,
derived duration in minutes, hour of day and weekday name, each `none`
when the instant it is derived from is `NaT`. -/
structure WatchEvent where
  rating_key : Option String
  username : String
  media_type : String
  title : String
  parent_title : String
  grandparent_title : String
  started_at : Option Int
  stopped_at : Option Int
  duration_minutes : Option ℚ
  hour : Option Nat
  weekday : Option String
deriving DecidableEq, Repr

/-- Accumulator parse of a decimal digit string; `none` as soon as a
non-digit appears. -/
def natOfDigitsAux : List Char → Nat → Option Nat
  | [], acc => some acc
  | c :: cs, acc =>
    if c.isDigit then natOfDigitsAux cs (acc * 10 + (c.toNat - 48)) else none

/-- Models `pd.to_datetime(col, unit="s", errors="coerce")` (lines 10–11) on an
integer-valued epoch field: a well-formed (optionally negative) integer
parses, anything else coerces to `NaT` (`none`). -/
def parseEpochSeconds (s : String) : Option Int :=
  match s.data with
  | [] => none
  | '-' :: [] => none
  | '-' :: c :: cs => (natOfDigitsAux (c :: cs) 0).map (fun n => -(n : Int))
  | cs => (natOfDigitsAux cs 0).map (fun n => (n : Int))

/-- The accessor `.dt.date` as an epoch-day number: the calendar date of an epoch
instant, ordered exactly as `datetime.date` values are. -/
def dateOf (t : Int) : Int :=
  t.fdiv 86400

/-- Civil (year, month, day) from an epoch-day number, the standard
days-to-civil conversion used by datetime libraries. -/
def civilFromDays (z : Int) : Int × Int × Int :=
  let z' := z + 719468
  let era := z'.fdiv 146097
  let doe := (z' - era * 146097).toNat
  let yoe := (doe - doe / 1460 + doe / 36524 - doe / 146096) / 365
  let doy := doe - (365 * yoe + yoe / 4 - yoe / 100)
  let mp := (5 * doy + 2) / 153
  let d := doy - (153 * mp + 2) / 5 + 1
  let m : Int := (mp : Int) + (if mp < 10 then 3 else -9)
  let y : Int := (yoe : Int) + era * 400
  (if m ≤ 2 then y + 1 else y, m, (d : Int))

/-- Models `started_dt.dt.to_period("M")` (line 89) as a single integer month
index `year * 12 + month`, ordered exactly as calendar months are. -/
def monthIndexOfDay (z : Int) : Int :=
  let c := civilFromDays z
  c.1 * 12 + c.2.1

/-- Models `started_dt.dt.year` (line 100). -/
def yearOfDay (z : Int) : Int :=
  (civilFromDays z).1

/-- Models `started_dt.dt.hour` (line 13). -/
def hourOfEpoch (t : Int) : Nat :=
  (t.emod 86400).toNat / 3600

/-- The canonical weekday order of line 162. -/
def weekday_order : List String :=
  ["Monday", "Tuesday", "Wednesday", "Thursday", "Friday", "Saturday", "Sunday"]

/-- Models `started_dt.dt.day_name()` (line 14): epoch day 0 (1970-01-01) was a
Thursday, index 3 counting from Monday. -/
def dayNameOfDay (z : Int) : String :=
  weekday_order.getD ((z + 3).emod 7).toNat ""

/-- Normalization of one row, `load_data` lines 10–14: parse both epoch
fields with coercion to `NaT`, then derive `duration_minutes` (NaN when
either instant is NaT), `hour` and `weekday` (NaN when `started` is NaT).
`(stopped_dt - started_dt).dt.total_seconds() / 60` is the exact rational
`(stopped - started) / 60`, written with `Rat.divInt`. -/
def load_data_row (r : RawRow) : WatchEvent :=
  let started_at := parseEpochSeconds r.started
  let stopped_at := parseEpochSeconds r.stopped
  { rating_key := r.rating_key
    username := r.username
    media_type := r.media_type
    title := r.title
    parent_title := r.parent_title
    grandparent_title := r.grandparent_title
    started_at := started_at
    stopped_at := stopped_at
    duration_minutes :=
      match started_at, stopped_at with
      | some a, some b => some (Rat.divInt (b - a) 60)
      | _, _ => none
    hour := started_at.map hourOfEpoch
    weekday := started_at.map (fun t => dayNameOfDay (dateOf t)) }

/-- Models `load_data` (lines 8–15): normalize every raw row, in order. -/
def load_data (rs : List RawRow) : List WatchEvent :=
  rs.map load_data_row

/-- The sidebar filter parameters (lines 21–24). -/
structure FilterSpec where
  users : List String
  media_types : List String
  start_date : Int
  end_date : Int
  min_duration_minutes : ℚ
deriving DecidableEq, Repr

/-- Models `df["started_dt"].dt.date >= date_range[0]` (line 30): a `NaT` date
compares `False` against any date in pandas. -/
def dateGe : Option Int → Int → Bool
  | some t, d => decide (d ≤ dateOf t)
  | none, _ => false

/-- Models `df["started_dt"].dt.date <= date_range[1]` (line 31). -/
def dateLe : Option Int → Int → Bool
  | some t, d => decide (dateOf t ≤ d)
  | none, _ => false

/-- Models `df["duration_minutes"] >= duration_min` (line 32): `NaN` compares
`False` against any number in pandas, whatever the bound. -/
def durGe : Option ℚ → ℚ → Bool
  | some d, m => decide (m ≤ d)
  | none, _ => false

theorem dateGe_iff (o : Option Int) (d : Int) :
    dateGe o d = true ↔ ∃ t, o = some t ∧ d ≤ dateOf t := by
  cases o <;> simp [dateGe]

theorem dateLe_iff (o : Option Int) (d : Int) :
    dateLe o d = true ↔ ∃ t, o = some t ∧ dateOf t ≤ d := by
  cases o <;> simp [dateLe]

theorem durGe_iff (o : Option ℚ) (m : ℚ) :
    durGe o m = true ↔ ∃ q, o = some q ∧ m ≤ q := by
  cases o <;> simp [durGe]

/-- The filter mask and row selection of lines 27–33: the conjunction of
the five boolean series, applied as a stable row filter. -/
def filtered (spec : FilterSpec) (l : List WatchEvent) : List WatchEvent :=
  l.filter (fun e =>
    spec.users.contains e.username &&
    spec.media_types.contains e.media_type &&
    dateGe e.started_at spec.start_date &&
    dateLe e.started_at spec.end_date &&
    durGe e.duration_minutes spec.min_duration_minutes)

/-- Characterization of membership in the filtered view (helper shared
by several results below). -/
theorem mem_filtered_iff (spec : FilterSpec) (l : List WatchEvent)
    (e : WatchEvent) :
    e ∈ filtered spec l ↔
      e ∈ l ∧ e.username ∈ spec.users ∧ e.media_type ∈ spec.media_types ∧
      (∃ t, e.started_at = some t ∧
        spec.start_date ≤ dateOf t ∧ dateOf t ≤ spec.end_date) ∧
      (∃ d, e.duration_minutes = some d ∧ spec.min_duration_minutes ≤ d) := by
  rw [filtered, List.mem_filter]
  simp only [Bool.and_eq_true, dateGe_iff, dateLe_iff, durGe_iff,
    List.contains, List.elem_eq_mem, decide_eq_true_iff]
  constructor
  · rintro ⟨hmem, ⟨⟨⟨hu, hm⟩, ⟨t, hs, hge⟩⟩, ⟨t', hs', hle⟩⟩, ⟨d, hd, hmin⟩⟩
    rw [hs] at hs'
    cases Option.some_injective _ hs'
    exact ⟨hmem, hu, hm, ⟨t, hs, hge, hle⟩, ⟨d, hd, hmin⟩⟩
  · rintro ⟨hmem, hu, hm, ⟨t, hs, hge, hle⟩, ⟨d, hd, hmin⟩⟩
    exact ⟨hmem, ⟨⟨⟨hu, hm⟩, ⟨t, hs, hge⟩⟩, ⟨t, hs, hle⟩⟩, ⟨d, hd, hmin⟩⟩

/-- C1: the Filter Engine retains exactly the events satisfying the
conjunction `username ∈ users`, `media_type ∈ media_types`,
`date(started_at) ∈ [start_date, end_date]`, `duration_minutes ≥
min_duration_minutes`; events whose `duration_minutes` is undefined are
excluded for every bound, including `min_duration_minutes = 0`. -/
theorem filtered_retains_exactly_conjunction (spec : FilterSpec)
    (l : List WatchEvent) (e : WatchEvent) :
    (e ∈ filtered spec l ↔
      e ∈ l ∧ e.username ∈ spec.users ∧ e.media_type ∈ spec.media_types ∧
      (∃ t, e.started_at = some t ∧
        spec.start_date ≤ dateOf t ∧ dateOf t ≤ spec.end_date) ∧
      (∃ d, e.duration_minutes = some d ∧ spec.min_duration_minutes ≤ d)) ∧
    (e.duration_minutes = none → 0 ≤ spec.min_duration_minutes →
      e ∉ filtered spec l) := by
  refine ⟨mem_filtered_iff spec l e, ?_⟩
  intro hnone _ hin
  rcases ((mem_filtered_iff spec l e).1 hin).2.2.2.2 with ⟨d, hd, _⟩
  rw [hnone] at hd
  exact Option.noConfusion hd

/-- A concrete event with a defined 10-minute duration. -/
def evInRange : WatchEvent :=
  load_data_row
    { rating_key := some "1", username := "alice", media_type := "episode",
      title := "t", parent_title := "p", grandparent_title := "X",
      started := "1000", stopped := "1600" }

/-- A concrete event whose `started` field does not parse, so its
duration is undefined. -/
def evNoStart : WatchEvent :=
  load_data_row
    { rating_key := some "2", username := "alice", media_type := "episode",
      title := "t", parent_title := "p", grandparent_title := "X",
      started := "oops", stopped := "1600" }

/-- A filter spec that accepts everything on day 0, with zero minimum
duration. -/
def specAll : FilterSpec :=
  { users := ["alice", "bob"], media_types := ["episode", "movie"],
    start_date := 0, end_date := 0, min_duration_minutes := 0 }

/-- Witness for C1 at a concrete event, spec and list. -/
theorem filtered_retains_exactly_conjunction_witness :
    evInRange ∈ filtered specAll [evInRange, evNoStart] ∧
    evNoStart.duration_minutes = none ∧
    0 ≤ specAll.min_duration_minutes ∧
    evNoStart ∉ filtered specAll [evInRange, evNoStart] := by
  refine ⟨?_, by decide, by decide, ?_⟩
  · exact (filtered_retains_exactly_conjunction specAll
      [evInRange, evNoStart] evInRange).1.mpr
      ⟨by decide, by decide, by decide,
       ⟨1000, by decide, by decide, by decide⟩,
       ⟨Rat.divInt 600 60, by decide, by decide⟩⟩
  · exact (filtered_retains_exactly_conjunction specAll
      [evInRange, evNoStart] evNoStart).2 (by decide) (by decide)

/-- C8: the Normalizer is total — every raw row yields a `WatchEvent`
whose instants are the (coercing) parses of the epoch fields, and whose
`duration_minutes`, `hour` and `weekday` are defined exactly when the
instants they depend on are. -/
theorem load_data_row_total_undefinedness (r : RawRow) :
    (load_data_row r).started_at = parseEpochSeconds r.started ∧
    (load_data_row r).stopped_at = parseEpochSeconds r.stopped ∧
    ((load_data_row r).duration_minutes.isSome ↔
      (load_data_row r).started_at.isSome ∧
      (load_data_row r).stopped_at.isSome) ∧
    ((load_data_row r).hour.isSome ↔ (load_data_row r).started_at.isSome) ∧
    ((load_data_row r).weekday.isSome ↔ (load_data_row r).started_at.isSome) := by
  refine ⟨rfl, rfl, ?_, ?_, ?_⟩ <;>
    simp only [load_data_row] <;>
    cases parseEpochSeconds r.started <;>
    cases parseEpochSeconds r.stopped <;> simp

/-! ### A computable lexicographic order on strings

pandas sorts string group keys lexicographically by code point.  Lean's
own `String` order is propositionally the same but its decision
procedure (`String.ltb`) is defined by well-founded recursion and does
not evaluate inside the kernel, so we sort with an explicitly
structural comparator and prove it equivalent to `· ≤ ·`. -/

def listCharLe : List Char → List Char → Bool
  | [], _ => true
  | _ :: _, [] => false
  | a :: as, b :: bs =>
    if a < b then true else if b < a then false else listCharLe as bs

/-- Code-point lexicographic `≤` on strings, as a computable Bool. -/
def strLe (s t : String) : Bool :=
  listCharLe s.data t.data

/-- The proposition `strLe s t = true`, the relation the groupby key
sort below uses for string keys. -/
def strLeP (s t : String) : Prop :=
  strLe s t = true

instance : DecidableRel strLeP :=
  fun s t => inferInstanceAs (Decidable (strLe s t = true))

theorem listCharLe_iff : ∀ x y : List Char,
    listCharLe x y = true ↔ ¬ y < x
  | [], y => by
    simp only [listCharLe]
    constructor
    · intro _ h
      cases h
    · intro _
      trivial
  | a :: as, [] => by
    simp only [listCharLe]
    constructor
    · intro h
      exact Bool.noConfusion h
    · intro h
      exact absurd List.Lex.nil h
  | a :: as, b :: bs => by
    simp only [listCharLe]
    by_cases hab : a < b
    · rw [if_pos hab]
      constructor
      · intro _ h
        cases h with
        | cons _ => exact lt_irrefl a hab
        | rel hba => exact absurd hba (lt_asymm hab)
      · intro _
        trivial
    · rw [if_neg hab]
      by_cases hba : b < a
      · rw [if_pos hba]
        constructor
        · intro h
          exact Bool.noConfusion h
        · intro h
          exact absurd (List.Lex.rel hba) h
      · rw [if_neg hba]
        rw [listCharLe_iff as bs]
        have hEq : a = b := le_antisymm (not_lt.1 hba) (not_lt.1 hab)
        subst hEq
        constructor
        · intro h hlt
          cases hlt with
          | cons htl => exact h htl
          | rel haa => exact lt_irrefl a haa
        · intro h hlt
          exact h (List.Lex.cons hlt)

/-- The comparator `strLe` decides Lean's `String` order. -/
theorem strLe_iff (s t : String) : strLeP s t ↔ s ≤ t := by
  rw [strLeP, strLe, listCharLe_iff]
  have hlt : t < s ↔ t.data < s.data := String.lt_iff_toList_lt
  rw [← hlt]
  exact not_lt

instance : IsTotal String strLeP :=
  ⟨fun a b => by rw [strLe_iff, strLe_iff]; exact le_total a b⟩

instance : IsTrans String strLeP :=
  ⟨fun a b c hab hbc => by
    rw [strLe_iff] at hab hbc ⊢
    exact le_trans hab hbc⟩

instance : IsAntisymm String strLeP :=
  ⟨fun a b hab hba => by
    rw [strLe_iff] at hab hba
    exact le_antisymm hab hba⟩

/-! ### Aggregation (`groupby(...).agg(views=("rating_key","count"), minutes=("duration_minutes","sum"))`) -/

/-- pandas `count` of the `rating_key` column over a group: the number of
rows whose `rating_key` is non-null. -/
def viewsOf (l : List WatchEvent) : Nat :=
  l.countP (fun e => e.rating_key.isSome)

/-- pandas `sum` of the `duration_minutes` column over a group: nulls
are skipped, i.e. contribute `0`. -/
def minutesOf (l : List WatchEvent) : ℚ :=
  (l.map (fun e => e.duration_minutes.getD 0)).sum

/-- The distinct non-null key values of a `groupby`, sorted ascending
by the given order (pandas `groupby` sorts group keys and drops null
keys). -/
def groupKeys {κ : Type} (r : κ → κ → Prop) [DecidableRel r] [DecidableEq κ]
    (key : WatchEvent → Option κ) (l : List WatchEvent) : List κ :=
  List.insertionSort r (l.filterMap key).dedup

/-- Models `groupby(key).agg(views=("rating_key","count"), minutes=("duration_minutes","sum"))`:
one row per distinct non-null key, keys ascending, with the two
aggregated columns. -/
def groupAgg {κ : Type} (r : κ → κ → Prop) [DecidableRel r] [DecidableEq κ]
    (key : WatchEvent → Option κ) (l : List WatchEvent) : List (κ × Nat × ℚ) :=
  (groupKeys r key l).map (fun k =>
    (k, viewsOf (l.filter (fun e => key e = some k)),
        minutesOf (l.filter (fun e => key e = some k))))

/-- Models `monthly["month"] = monthly["started_dt"].dt.to_period("M")` (line 89),
null for a `NaT` start. -/
def monthKey (e : WatchEvent) : Option Int :=
  e.started_at.map (fun t => monthIndexOfDay (dateOf t))

/-- Models `yearly["year"] = yearly["started_dt"].dt.year` (line 100). -/
def yearKey (e : WatchEvent) : Option Int :=
  e.started_at.map (fun t => yearOfDay (dateOf t))

/-- Tab 2 line 90: the monthly summary, grouped by calendar month. -/
def monthly_summary (l : List WatchEvent) : List (Int × Nat × ℚ) :=
  groupAgg (· ≤ ·) monthKey l

/-- Tab 4 line 115: the per-user aggregate, before ranking. -/
def user_groups (l : List WatchEvent) : List (String × Nat × ℚ) :=
  groupAgg strLeP (fun e => some e.username) l

/-- Tab 5 line 128: the per-show aggregate, before ranking. -/
def show_groups (l : List WatchEvent) : List (String × Nat × ℚ) :=
  groupAgg strLeP (fun e => some e.grandparent_title) l

/-- Tab 8 line 161: the per-weekday aggregate before reindexing. -/
def weekday_groups (l : List WatchEvent) : List (String × Nat × ℚ) :=
  groupAgg strLeP (fun e => e.weekday) l

/-- Models `DataFrame.reindex(order)` (line 163): one output row per requested
label, in the requested order; a label with no group gets `NaN` cells
(`none`), pandas' default fill value. -/
def reindexLabels (rows : List (String × Nat × ℚ)) (order : List String) :
    List (String × Option (Nat × ℚ)) :=
  order.map (fun w => (w, (rows.find? (fun r => r.1 = w)).map Prod.snd))

/-- Tab 8 lines 161–163: the weekday summary after reindexing to the
canonical weekday order. -/
def weekday_summary (l : List WatchEvent) : List (String × Option (Nat × ℚ)) :=
  reindexLabels (weekday_groups l) weekday_order

/-! ### Generic groupby lemmas -/

theorem groupKeys_sorted {κ : Type} (r : κ → κ → Prop) [DecidableRel r]
    [DecidableEq κ] [IsTotal κ r] [IsTrans κ r]
    (key : WatchEvent → Option κ) (l : List WatchEvent) :
    List.Sorted r (groupKeys r key l) :=
  List.sorted_insertionSort _ _

theorem groupKeys_nodup {κ : Type} (r : κ → κ → Prop) [DecidableRel r]
    [DecidableEq κ] (key : WatchEvent → Option κ) (l : List WatchEvent) :
    (groupKeys r key l).Nodup :=
  (List.perm_insertionSort _ _).nodup_iff.mpr (List.nodup_dedup _)

/-- The sorted distinct keys are pairwise strictly related: related by
the sort order and distinct. -/
theorem groupKeys_pairwise_ne {κ : Type} (r : κ → κ → Prop) [DecidableRel r]
    [DecidableEq κ] [IsTotal κ r] [IsTrans κ r]
    (key : WatchEvent → Option κ) (l : List WatchEvent) :
    (groupKeys r key l).Pairwise (fun a b => r a b ∧ a ≠ b) :=
  (groupKeys_sorted r key l).and (groupKeys_nodup r key l)

theorem mem_groupKeys {κ : Type} (r : κ → κ → Prop) [DecidableRel r]
    [DecidableEq κ] (key : WatchEvent → Option κ) (l : List WatchEvent)
    (k : κ) :
    k ∈ groupKeys r key l ↔ ∃ e ∈ l, key e = some k := by
  rw [groupKeys]
  rw [List.mem_insertionSort, List.mem_dedup, List.mem_filterMap]

theorem groupKeys_perm_inv {κ : Type} (r : κ → κ → Prop) [DecidableRel r]
    [DecidableEq κ] [IsTotal κ r] [IsTrans κ r] [IsAntisymm κ r]
    (key : WatchEvent → Option κ) {l₁ l₂ : List WatchEvent}
    (h : l₁.Perm l₂) : groupKeys r key l₁ = groupKeys r key l₂ := by
  have hd : ((l₁.filterMap key).dedup).Perm ((l₂.filterMap key).dedup) := by
    rw [List.perm_ext_iff_of_nodup (List.nodup_dedup _) (List.nodup_dedup _)]
    intro a
    rw [List.mem_dedup, List.mem_dedup]
    exact (h.filterMap key).mem_iff
  have hp : (groupKeys r key l₁).Perm (groupKeys r key l₂) :=
    ((List.perm_insertionSort _ _).trans hd).trans
      (List.perm_insertionSort _ _).symm
  exact List.eq_of_perm_of_sorted hp (groupKeys_sorted r key l₁)
    (groupKeys_sorted r key l₂)

theorem groupAgg_perm_inv {κ : Type} (r : κ → κ → Prop) [DecidableRel r]
    [DecidableEq κ] [IsTotal κ r] [IsTrans κ r] [IsAntisymm κ r]
    (key : WatchEvent → Option κ) {l₁ l₂ : List WatchEvent}
    (h : l₁.Perm l₂) : groupAgg r key l₁ = groupAgg r key l₂ := by
  rw [groupAgg, groupAgg, groupKeys_perm_inv r key h]
  refine List.map_congr_left (fun k _ => ?_)
  have hf := h.filter (fun e => decide (key e = some k))
  rw [viewsOf, viewsOf, minutesOf, minutesOf, hf.countP_eq, (hf.map _).sum_eq]

/-! ### Partition lemmas for the total-minutes identity -/

theorem sum_map_addQ {κ : Type} (f g : κ → ℚ) (ks : List κ) :
    (ks.map (fun k => f k + g k)).sum = (ks.map f).sum + (ks.map g).sum := by
  induction ks with
  | nil => simp
  | cons b t ih => simp only [List.map_cons, List.sum_cons, ih]; ring

theorem sum_if_single {κ : Type} [DecidableEq κ] (ks : List κ) (a : κ)
    (c : ℚ) (hnd : ks.Nodup) (ha : a ∈ ks) :
    (ks.map (fun k => if a = k then c else 0)).sum = c := by
  induction ks with
  | nil => cases ha
  | cons b t ih =>
    rcases List.mem_cons.1 ha with h | h
    · subst h
      have hz : (t.map (fun k => if a = k then c else 0)).sum = 0 := by
        refine List.sum_eq_zero ?_
        intro x hx
        rcases List.mem_map.1 hx with ⟨y, hy, rfl⟩
        have hay : a ≠ y := fun hab => (List.nodup_cons.1 hnd).1 (hab ▸ hy)
        simp [hay]
      simp [hz]
    · have hne : a ≠ b := by
        rintro rfl
        exact (List.nodup_cons.1 hnd).1 h
      rw [List.map_cons, List.sum_cons, if_neg hne,
        ih (List.nodup_cons.1 hnd).2 h]
      ring

theorem minutes_partition {κ : Type} [DecidableEq κ] (keyf : WatchEvent → κ)
    (ks : List κ) (hnd : ks.Nodup) (l : List WatchEvent)
    (hcov : ∀ e ∈ l, keyf e ∈ ks) :
    (ks.map (fun k => minutesOf (l.filter (fun e => keyf e = k)))).sum
      = minutesOf l := by
  induction l with
  | nil =>
    rw [show minutesOf [] = 0 from rfl]
    refine List.sum_eq_zero ?_
    intro x hx
    rcases List.mem_map.1 hx with ⟨k, _, rfl⟩
    rfl
  | cons e t ih =>
    have hstep : ∀ k : κ, minutesOf ((e :: t).filter (fun x => keyf x = k))
        = (if keyf e = k then e.duration_minutes.getD 0 else 0)
          + minutesOf (t.filter (fun x => keyf x = k)) := by
      intro k
      by_cases h : keyf e = k
      · simp [List.filter_cons, h, minutesOf]
      · simp [List.filter_cons, h]
    calc (ks.map fun k => minutesOf ((e :: t).filter (fun x => keyf x = k))).sum
        = (ks.map fun k => (if keyf e = k then e.duration_minutes.getD 0 else 0)
            + minutesOf (t.filter (fun x => keyf x = k))).sum :=
          congrArg List.sum (List.map_congr_left (fun k _ => hstep k))
      _ = (ks.map fun k =>
              (if keyf e = k then e.duration_minutes.getD 0 else 0)).sum
            + (ks.map fun k => minutesOf (t.filter (fun x => keyf x = k))).sum :=
          sum_map_addQ _ _ ks
      _ = e.duration_minutes.getD 0 + minutesOf t := by
          rw [sum_if_single ks (keyf e) _ hnd (hcov e (List.mem_cons_self e t)),
            ih (fun x hx => hcov x (List.mem_cons_of_mem e hx))]
      _ = minutesOf (e :: t) := by simp [minutesOf]

theorem sum_getD_eq_filterMap (l : List WatchEvent)
    (h : ∀ e ∈ l, e.duration_minutes.isSome) :
    (l.map (fun e => e.duration_minutes.getD 0)).sum
      = (l.filterMap (fun e => e.duration_minutes)).sum := by
  induction l with
  | nil => rfl
  | cons e t ih =>
    rcases Option.isSome_iff_exists.1 (h e (List.mem_cons_self e t)) with ⟨d, hd⟩
    rw [List.map_cons, List.sum_cons, List.filterMap_cons, hd, List.sum_cons,
      ih (fun x hx => h x (List.mem_cons_of_mem e hx))]
    simp [Option.getD, hd]

theorem mem_filtered_duration_isSome (spec : FilterSpec) (l : List WatchEvent) :
    ∀ e ∈ filtered spec l, e.duration_minutes.isSome := by
  intro e he
  rcases ((mem_filtered_iff spec l e).1 he).2.2.2.2 with ⟨d, hd, _⟩
  simp [hd]

/-! ### Shape of normalized rows in the filtered view (shared helpers) -/

/-- Field shape of a normalized row (helper shared by the C8 and C9
claims and the grouping results below). -/
theorem load_data_row_fields (r : RawRow) :
    (load_data_row r).started_at = parseEpochSeconds r.started ∧
    (load_data_row r).stopped_at = parseEpochSeconds r.stopped ∧
    ((load_data_row r).duration_minutes.isSome ↔
      (load_data_row r).started_at.isSome ∧
      (load_data_row r).stopped_at.isSome) ∧
    ((load_data_row r).hour.isSome ↔ (load_data_row r).started_at.isSome) ∧
    ((load_data_row r).weekday.isSome ↔ (load_data_row r).started_at.isSome) := by
  refine ⟨rfl, rfl, ?_, ?_, ?_⟩ <;>
    simp only [load_data_row] <;>
    cases parseEpochSeconds r.started <;>
    cases parseEpochSeconds r.stopped <;> simp

/-- Every event of the filtered view of normalized data has all derived
fields defined and a duration above the bound (helper shared by several
results below). -/
theorem mem_filtered_load_defined (spec : FilterSpec) (rows : List RawRow)
    (e : WatchEvent) (h : e ∈ filtered spec (load_data rows)) :
    e.started_at.isSome ∧ e.stopped_at.isSome ∧ e.hour.isSome ∧
    e.weekday.isSome ∧
    ∃ d, e.duration_minutes = some d ∧ spec.min_duration_minutes ≤ d := by
  have hm := (mem_filtered_iff spec _ e).1 h
  rcases List.mem_map.1 hm.1 with ⟨r, _, rfl⟩
  rcases hm.2.2.2.1 with ⟨t, hs, _, _⟩
  rcases hm.2.2.2.2 with ⟨d, hd, hmin⟩
  have hsS : (load_data_row r).started_at.isSome := by rw [hs]; rfl
  have hdS : (load_data_row r).duration_minutes.isSome := by rw [hd]; rfl
  have hfields := load_data_row_fields r
  refine ⟨hsS, ((hfields.2.2.1).1 hdS).2, ?_, ?_, d, hd, hmin⟩
  · exact (hfields.2.2.2.1).2 hsS
  · exact (hfields.2.2.2.2).2 hsS

/-! ### C4: per-group metrics -/

/-- Tab 3 line 103: the year grouping,
`groupby("year").agg(views=("rating_key","count"), minutes=("duration_minutes","sum"))`
(the tab applies it to the year-range-restricted view). -/
def year_summary (l : List WatchEvent) : List (Int × Nat × ℚ) :=
  groupAgg (· ≤ ·) yearKey l

/-- Tab 7 line 152: the hour-of-day grouping. -/
def hour_summary (l : List WatchEvent) : List (Nat × Nat × ℚ) :=
  groupAgg (· ≤ ·) (fun e => e.hour) l

/-- Every grouping computes, per group, the count of events with
non-null `rating_key` and the null-skipping sum of `duration_minutes`. -/
theorem groupAgg_row_metrics {κ : Type} (r : κ → κ → Prop) [DecidableRel r]
    [DecidableEq κ] (key : WatchEvent → Option κ) (l : List WatchEvent) :
    groupAgg r key l = (groupKeys r key l).map (fun k =>
      (k, ((l.filter (fun e => key e = some k)).filter
            (fun e => e.rating_key.isSome)).length,
          ((l.filter (fun e => key e = some k)).map
            (fun e => e.duration_minutes.getD 0)).sum)) := by
  rw [groupAgg]
  refine List.map_congr_left (fun k _ => ?_)
  rw [viewsOf, minutesOf, List.countP_eq_length_filter]

/-- For any grouping whose key is defined on every input event, the sum
of the minutes column over the groups equals the null-skipping duration
sum over the whole input. -/
theorem groupAgg_minutes_total {κ : Type} (r : κ → κ → Prop) [DecidableRel r]
    [DecidableEq κ] (key : WatchEvent → Option κ) (l : List WatchEvent)
    (hdef : ∀ e ∈ l, (key e).isSome) :
    ((groupAgg r key l).map (fun x => x.2.2)).sum = minutesOf l := by
  rw [groupAgg, List.map_map]
  have hnd : ((groupKeys r key l).map some).Nodup :=
    (groupKeys_nodup r key l).map (fun a b h => Option.some_injective _ h)
  have hcov : ∀ e ∈ l, key e ∈ (groupKeys r key l).map some := by
    intro e he
    rcases Option.isSome_iff_exists.1 (hdef e he) with ⟨m, hm⟩
    rw [hm]
    exact List.mem_map_of_mem some ((mem_groupKeys r key l m).2 ⟨e, he, hm⟩)
  have := minutes_partition key ((groupKeys r key l).map some) hnd l hcov
  rw [← this, List.map_map]
  rfl

/-- C4 counterexample: a group containing one event whose `rating_key`
is null gets `view_count = 0`, although the group has 1 event — pandas
`count` counts non-null `rating_key` cells, not events. -/
def evNoKey : WatchEvent :=
  load_data_row
    { rating_key := none, username := "alice", media_type := "episode",
      title := "t", parent_title := "p", grandparent_title := "X",
      started := "1000", stopped := "1600" }

/-- C4 counterexample: on `[evNoKey]` the single `alice` group carries
`view_count = 0` while the group contains exactly 1 event, refuting
"`view_count` equals the number of events in that group". -/
theorem group_view_count_counterexample :
    ((user_groups [evNoKey]).map (fun r => (r.1, r.2.1)) = [("alice", 0)]) ∧
    ([evNoKey].filter (fun e => e.username = "alice")).length = 1 ∧
    (0 : Nat) ≠ 1 := by
  refine ⟨by decide, by decide, by decide⟩

/-- C4 (amended): over the filtered view of normalized data, EVERY
grouping yields, per group, `view_count` = the number of events in the
group whose `rating_key` is non-null (pandas `count` counts non-null
cells of the counted column, not events — see the counterexample) and
`total_minutes` = the sum of `duration_minutes` over the group with
undefined durations contributing 0; and for each grouping the source
performs (month, year, user, show, hour, weekday) the sum of
`total_minutes` over all groups equals the sum of `duration_minutes`
over all events with defined duration in the filtered set. -/
theorem group_metrics_amended (spec : FilterSpec) (rows : List RawRow) :
    (∀ (κ : Type) (r : κ → κ → Prop) (dr : DecidableRel r)
        (de : DecidableEq κ) (key : WatchEvent → Option κ),
      @groupAgg κ r dr de key (filtered spec (load_data rows))
        = (@groupKeys κ r dr de key (filtered spec (load_data rows))).map
            (fun k =>
              (k,
               (((filtered spec (load_data rows)).filter
                   (fun e => key e = some k)).filter
                   (fun e => e.rating_key.isSome)).length,
               (((filtered spec (load_data rows)).filter
                   (fun e => key e = some k)).map
                   (fun e => e.duration_minutes.getD 0)).sum))) ∧
    ((monthly_summary (filtered spec (load_data rows))).map
        (fun x => x.2.2)).sum
      = ((filtered spec (load_data rows)).filterMap
          (fun e => e.duration_minutes)).sum ∧
    ((year_summary (filtered spec (load_data rows))).map
        (fun x => x.2.2)).sum
      = ((filtered spec (load_data rows)).filterMap
          (fun e => e.duration_minutes)).sum ∧
    ((user_groups (filtered spec (load_data rows))).map
        (fun x => x.2.2)).sum
      = ((filtered spec (load_data rows)).filterMap
          (fun e => e.duration_minutes)).sum ∧
    ((show_groups (filtered spec (load_data rows))).map
        (fun x => x.2.2)).sum
      = ((filtered spec (load_data rows)).filterMap
          (fun e => e.duration_minutes)).sum ∧
    ((hour_summary (filtered spec (load_data rows))).map
        (fun x => x.2.2)).sum
      = ((filtered spec (load_data rows)).filterMap
          (fun e => e.duration_minutes)).sum ∧
    ((weekday_groups (filtered spec (load_data rows))).map
        (fun x => x.2.2)).sum
      = ((filtered spec (load_data rows)).filterMap
          (fun e => e.duration_minutes)).sum := by
  have hmain : minutesOf (filtered spec (load_data rows))
      = ((filtered spec (load_data rows)).filterMap
          (fun e => e.duration_minutes)).sum := by
    rw [minutesOf, sum_getD_eq_filterMap _
      (mem_filtered_duration_isSome spec (load_data rows))]
  have hstart : ∀ e ∈ filtered spec (load_data rows), e.started_at.isSome :=
    fun e he => (mem_filtered_load_defined spec rows e he).1
  have hdefM : ∀ e ∈ filtered spec (load_data rows), (monthKey e).isSome := by
    intro e he
    rcases Option.isSome_iff_exists.1 (hstart e he) with ⟨t, ht⟩
    rw [monthKey, ht]
    rfl
  have hdefY : ∀ e ∈ filtered spec (load_data rows), (yearKey e).isSome := by
    intro e he
    rcases Option.isSome_iff_exists.1 (hstart e he) with ⟨t, ht⟩
    rw [yearKey, ht]
    rfl
  refine ⟨fun κ r dr de key => @groupAgg_row_metrics κ r dr de key _,
    ?_, ?_, ?_, ?_, ?_, ?_⟩
  · rw [monthly_summary,
      groupAgg_minutes_total (· ≤ ·) monthKey _ hdefM, hmain]
  · rw [year_summary,
      groupAgg_minutes_total (· ≤ ·) yearKey _ hdefY, hmain]
  · rw [user_groups,
      groupAgg_minutes_total strLeP (fun e => some e.username) _
        (fun e _ => rfl), hmain]
  · rw [show_groups,
      groupAgg_minutes_total strLeP (fun e => some e.grandparent_title) _
        (fun e _ => rfl), hmain]
  · rw [hour_summary,
      groupAgg_minutes_total (· ≤ ·) (fun e => e.hour) _
        (fun e he => (mem_filtered_load_defined spec rows e he).2.2.1), hmain]
  · rw [weekday_groups,
      groupAgg_minutes_total strLeP (fun e => e.weekday) _
        (fun e he => (mem_filtered_load_defined spec rows e he).2.2.2.1),
      hmain]

/-! ### C6: monthly aggregation is chronological -/

theorem groupAgg_map_fst {κ : Type} (r : κ → κ → Prop) [DecidableRel r]
    [DecidableEq κ] (key : WatchEvent → Option κ) (l : List WatchEvent) :
    (groupAgg r key l).map Prod.fst = groupKeys r key l := by
  rw [groupAgg, List.map_map]
  exact List.map_id' _

/-- C6: the monthly summary has strictly increasing (hence distinct)
month keys — chronologically ascending, one row per month present — a
month appears iff some event of the input falls in it, and the whole
summary is invariant under permutation of the input rows. -/
theorem monthly_summary_chronological (l : List WatchEvent) :
    List.Sorted (· < ·) ((monthly_summary l).map Prod.fst) ∧
    (∀ k, k ∈ (monthly_summary l).map Prod.fst ↔
      ∃ e ∈ l, monthKey e = some k) ∧
    (∀ l', l.Perm l' → monthly_summary l = monthly_summary l') := by
  refine ⟨?_, ?_, ?_⟩
  · rw [monthly_summary, groupAgg_map_fst]
    exact (groupKeys_pairwise_ne (· ≤ ·) monthKey l).imp
      (fun h => lt_of_le_of_ne h.1 h.2)
  · intro k
    rw [monthly_summary, groupAgg_map_fst]
    exact mem_groupKeys (· ≤ ·) monthKey l k
  · intro l' h
    exact groupAgg_perm_inv (· ≤ ·) monthKey h

/-- An event on 1970-01-01 (month index 1970·12+1 = 23641). -/
def evJan : WatchEvent :=
  load_data_row
    { rating_key := some "1", username := "alice", media_type := "episode",
      title := "t", parent_title := "p", grandparent_title := "X",
      started := "0", stopped := "600" }

/-- An event on 1970-02-01 (month index 23642). -/
def evFeb : WatchEvent :=
  load_data_row
    { rating_key := some "2", username := "bob", media_type := "movie",
      title := "u", parent_title := "q", grandparent_title := "Y",
      started := "2678400", stopped := "2679600" }

/-- Witness for C6: with the February event listed first, the summary
still lists January before February (2 rows, chronological), and
reversing the input row order changes nothing. -/
theorem monthly_summary_chronological_witness :
    List.Sorted (· < ·) ((monthly_summary [evFeb, evJan]).map Prod.fst) ∧
    monthly_summary [evFeb, evJan] = monthly_summary [evJan, evFeb] ∧
    ((monthly_summary [evFeb, evJan]).map (fun r => (r.1, r.2.1))
      = [(23641, 1), (23642, 1)]) :=
  ⟨(monthly_summary_chronological [evFeb, evJan]).1,
   (monthly_summary_chronological [evFeb, evJan]).2.2 [evJan, evFeb]
     (List.Perm.swap evJan evFeb []),
   by decide⟩

/-! ### C2: weekday summary -/

theorem weekday_summary_lookup (l : List WatchEvent) (w : String) :
    ((weekday_groups l).find? (fun r => r.1 = w)).map Prod.snd
      = ((groupKeys strLeP (fun e => e.weekday) l).find? (fun k => k = w)).map
          (fun k => (viewsOf (l.filter (fun e => e.weekday = some k)),
                     minutesOf (l.filter (fun e => e.weekday = some k)))) := by
  rw [weekday_groups, groupAgg, List.find?_map, Option.map_map]
  rfl

/-- C2 counterexample: on an empty input the weekday summary does have 7
rows in canonical order, but every row's metric cells are pandas `NaN`
(`reindex`'s default fill), not `view_count = 0`, `total_minutes = 0`. -/
theorem weekday_zero_fill_counterexample :
    weekday_summary [] =
      [("Monday", none), ("Tuesday", none), ("Wednesday", none),
       ("Thursday", none), ("Friday", none), ("Saturday", none),
       ("Sunday", none)] ∧
    (none : Option (Nat × ℚ)) ≠ some (0, 0) :=
  ⟨by decide, by decide⟩

/-- C2 (amended): the weekday summary always has exactly 7 rows, one per
weekday label in canonical Monday–Sunday order; a weekday with no
matching events carries undefined (`NaN`) metric cells rather than
zeros, and a weekday with matching events carries that group's count and
minutes sum. -/
theorem weekday_summary_seven_rows (l : List WatchEvent) :
    ((weekday_summary l).map Prod.fst = weekday_order) ∧
    (weekday_summary l).length = 7 ∧
    (∀ w o, (w, o) ∈ weekday_summary l →
      ((o = none ↔ ∀ e ∈ l, e.weekday ≠ some w) ∧
       (∀ e₀ ∈ l, e₀.weekday = some w →
         o = some (viewsOf (l.filter (fun e => e.weekday = some w)),
                   minutesOf (l.filter (fun e => e.weekday = some w)))))) := by
  refine ⟨?_, ?_, ?_⟩
  · rw [weekday_summary, reindexLabels, List.map_map]
    exact List.map_id' _
  · rw [weekday_summary, reindexLabels, List.length_map]
    rfl
  · intro w o hmem
    rw [weekday_summary, reindexLabels] at hmem
    rcases List.mem_map.1 hmem with ⟨w', _, heq⟩
    have hw : w' = w := congrArg Prod.fst heq
    subst hw
    have ho : o = ((weekday_groups l).find? (fun r => r.1 = w')).map Prod.snd :=
      (congrArg Prod.snd heq).symm
    rw [weekday_summary_lookup] at ho
    constructor
    · rw [ho, Option.map_eq_none', List.find?_eq_none]
      constructor
      · intro hnone e hel hw
        have hk : w' ∈ groupKeys strLeP (fun e => e.weekday) l :=
          (mem_groupKeys strLeP _ l w').2 ⟨e, hel, hw⟩
        exact absurd (by simp : ((fun k => decide (k = w')) w') = true)
          (hnone w' hk)
      · intro hall k hk
        rcases (mem_groupKeys strLeP _ l k).1 hk with ⟨e, hel, hke⟩
        simp only [decide_eq_true_iff]
        rintro rfl
        exact hall e hel hke
    · intro e₀ he₀ hwk
      have hk : w' ∈ groupKeys strLeP (fun e => e.weekday) l :=
        (mem_groupKeys strLeP _ l w').2 ⟨e₀, he₀, hwk⟩
      rcases hf : (groupKeys strLeP (fun e => e.weekday) l).find?
          (fun k => k = w')
        with _ | k'
      · rw [List.find?_eq_none] at hf
        exact absurd (by simp : ((fun k => decide (k = w')) w') = true)
          (hf w' hk)
      · have : k' = w' := by
          have := List.find?_some hf
          simpa using this
        subst this
        rw [ho, hf]
        rfl

/-- Witness for C2 at a concrete input: `evJan` started on a Thursday,
so the Monday row of its weekday summary is `NaN`, and the amended
theorem turns that `NaN` into "no event fell on a Monday". -/
theorem weekday_summary_seven_rows_witness :
    (("Monday", (none : Option (Nat × ℚ))) ∈ weekday_summary [evJan]) ∧
    evJan.weekday ≠ some "Monday" :=
  ⟨by decide,
   (((weekday_summary_seven_rows [evJan]).2.2 "Monday" none
     (by decide)).1).1 rfl evJan (List.mem_cons_self evJan [])⟩

/-! ### C5: invalid queries -/

/-- A `FilterSpec` with inconsistent bounds (`start_date > end_date`). -/
def specBad : FilterSpec :=
  { users := ["alice", "bob"], media_types := ["episode", "movie"],
    start_date := 1, end_date := 0, min_duration_minutes := 0 }

/-- C5 counterexample: filtering with `start_date > end_date` is not
rejected — `filtered` is a total function into plain row lists with no
error channel, and here it returns the ordinary empty result on a
nonempty input, indistinguishable from a successful query with zero
matches.  (There is also no grouping-key parameter anywhere: each view
hard-codes its key, so an "unrecognized grouping key" cannot even be
submitted.) -/
theorem invalid_query_counterexample :
    filtered specBad [evInRange] = [] := by
  decide

/-- C5 (amended): an internally inconsistent `FilterSpec`
(`start_date > end_date`) is silently accepted and always produces the
empty row list — a successful zero-row result, not an explicit
rejected-input condition. -/
theorem invalid_query_empty_result (spec : FilterSpec) (l : List WatchEvent)
    (h : spec.end_date < spec.start_date) :
    filtered spec l = [] := by
  refine List.eq_nil_iff_forall_not_mem.mpr (fun e he => ?_)
  rcases ((mem_filtered_iff spec l e).1 he).2.2.2.1 with ⟨t, _, hge, hle⟩
  exact absurd (le_trans hge hle) (not_le.2 h)

/-- Witness for C5's amended statement at a concrete spec and input. -/
theorem invalid_query_empty_result_witness :
    specBad.end_date < specBad.start_date ∧
    filtered specBad [evInRange, evNoStart] = [] :=
  ⟨by decide, invalid_query_empty_result specBad [evInRange, evNoStart]
    (by decide)⟩

/-! ### C9: the filtered view only holds fully-defined events -/

/-- C9: every event of the filtered view of normalized data has a
defined `started_at`, `stopped_at`, `hour` and `weekday`, and a defined
`duration_minutes ≥ min_duration_minutes` — no event with an unknown
instant or undefined duration survives the filter, so none reaches any
aggregate, the history table, or an export (all of which consume only
`filtered ...`). -/
theorem filtered_events_all_defined (spec : FilterSpec) (rows : List RawRow)
    (e : WatchEvent) (h : e ∈ filtered spec (load_data rows)) :
    e.started_at.isSome ∧ e.stopped_at.isSome ∧ e.hour.isSome ∧
    e.weekday.isSome ∧
    ∃ d, e.duration_minutes = some d ∧ spec.min_duration_minutes ≤ d :=
  mem_filtered_load_defined spec rows e h

/-- The raw row behind `evInRange`, for the C9 witness. -/
def rawInRange : RawRow :=
  { rating_key := some "1", username := "alice", media_type := "episode",
    title := "t", parent_title := "p", grandparent_title := "X",
    started := "1000", stopped := "1600" }

/-- Witness for C9 at a concrete raw row and spec. -/
theorem filtered_events_all_defined_witness :
    evInRange ∈ filtered specAll (load_data [rawInRange]) ∧
    evInRange.started_at.isSome ∧ evInRange.stopped_at.isSome ∧
    evInRange.hour.isSome ∧ evInRange.weekday.isSome ∧
    evInRange.duration_minutes.isSome := by
  have h := filtered_events_all_defined specAll [rawInRange] evInRange
    (by decide)
  rcases h.2.2.2.2 with ⟨d, hd, _⟩
  exact ⟨by decide, h.1, h.2.1, h.2.2.1, h.2.2.2.1, by rw [hd]; rfl⟩

/-! ### C10: the yearly summary is partial on an empty view -/

/-- Tab 3 line 101: `int(yearly["year"].min())` and
`int(yearly["year"].max())`.  On an empty (or all-`NaT`) filtered view
the column minimum is `NaN` and `int(NaN)` raises `ValueError`; the
failure is modeled as `none`. -/
def year_bounds (l : List WatchEvent) : Option (Int × Int) :=
  match l.filterMap yearKey with
  | [] => none
  | y :: ys => some (ys.foldl min y, ys.foldl max y)

/-- Tab 3 lines 99–103 with the year slider at its default full range:
compute the slider bounds from the data (failing on an empty view),
restrict to the selected years, then group by year. -/
def yearly_summary_tab (l : List WatchEvent) :
    Option (List (Int × Nat × ℚ)) :=
  match year_bounds l with
  | none => none
  | some (lo, hi) =>
      some (groupAgg (· ≤ ·) yearKey (l.filter (fun e =>
        match yearKey e with
        | some y => decide (lo ≤ y) && decide (y ≤ hi)
        | none => false)))

/-- C10: on an empty filtered view the yearly summary fails while
computing the year-range bounds (`int(NaN)` raises) instead of
returning a zero-row summary. -/
theorem yearly_partial_on_empty (spec : FilterSpec) (l : List WatchEvent)
    (h : filtered spec l = []) :
    yearly_summary_tab (filtered spec l) = none ∧
    yearly_summary_tab (filtered spec l) ≠ some [] := by
  rw [h]
  exact ⟨rfl, fun hc => Option.noConfusion hc⟩

/-- Witness for C10: a filter over no events yields the empty view, on
which the yearly summary fails. -/
theorem yearly_partial_on_empty_witness :
    filtered specAll [] = [] ∧
    yearly_summary_tab (filtered specAll []) = none :=
  ⟨rfl, (yearly_partial_on_empty specAll [] rfl).1⟩

/-! ### C7: the Export Formatter

`convert_df_to_csv` (lines 47–49) is `df.to_csv(index=False).encode("utf-8")`:
one comma-separated header line then one line per row, each line ended
by the line terminator, with minimal quoting.  Python's csv writer under
`QUOTE_MINIMAL` quotes a field iff it contains the delimiter, the quote
character, or a character of the line terminator; pandas' default line
terminator is `os.linesep`, which is `"\n"` on POSIX — the setting this
model follows — so a field holding a bare carriage return is emitted
**unquoted**.  We model the cell grid (header row included) as
`List (List (List Char))` and the emitted bytes as `List Char`. -/

/-- Does a field need quoting under `QUOTE_MINIMAL` with delimiter `,`,
quote char `"` and line terminator `"\n"`?  A bare `'\x0d'` (carriage
return) does not trigger quoting. -/
def csvNeedsQuote (f : List Char) : Bool :=
  f.any (fun c => c = ',' || c = '"' || c = '\n')

/-- Double an embedded quote character. -/
def csvEscapeChar (c : Char) : List Char :=
  if c = '"' then ['"', '"'] else [c]

/-- Serialize one field with minimal quoting. -/
def csvField (f : List Char) : List Char :=
  if csvNeedsQuote f then '"' :: (f.map csvEscapeChar).flatten ++ ['"'] else f

/-- Serialize one record: fields joined by commas. -/
def csvRecord : List (List Char) → List Char
  | [] => []
  | [f] => csvField f
  | f :: g :: fs => csvField f ++ ',' :: csvRecord (g :: fs)

/-- Serialize the whole grid: one line per record, each ending in `\n`. -/
def toCsv (t : List (List (List Char))) : List Char :=
  (t.map (fun rr => csvRecord rr ++ ['\n'])).flatten

/-- Models `convert_df_to_csv` (lines 47–49) at the level of string cells. -/
def convert_df_to_csv (t : List (List (List Char))) : List Char :=
  toCsv t

/-- A character that ends an unquoted field. -/
def notSepChar (c : Char) : Bool :=
  !(c = ',' || c = '\n' || c = '\r')

/-- Standard reader, quoted-field state: consume until the closing
quote, unescaping doubled quotes; `none` on an unterminated quote. -/
def parseQuotedAux : List Char → List Char → Option (List Char × List Char)
  | _, [] => none
  | acc, c :: rest =>
    if c = '"' then
      match rest with
      | [] => some (acc, [])
      | c' :: rest' =>
        if c' = '"' then parseQuotedAux (acc ++ ['"']) rest'
        else some (acc, c' :: rest')
    else parseQuotedAux (acc ++ [c]) rest

/-- Standard reader, one field: quoted if it starts with a quote, else
everything up to the next separator. -/
def parseField (s : List Char) : Option (List Char × List Char) :=
  match s with
  | [] => some ([], [])
  | c :: rest =>
    if c = '"' then parseQuotedAux [] rest
    else some ((c :: rest).takeWhile notSepChar,
               (c :: rest).dropWhile notSepChar)

/-- Standard reader, one record up to and including its `\n`. -/
def parseRecordAux : Nat → List Char → Option (List (List Char) × List Char)
  | 0, _ => none
  | Nat.succ fuel, s =>
    match parseField s with
    | none => none
    | some (f, rest) =>
      match rest with
      | [] => none
      | c :: r =>
        if c = ',' then
          match parseRecordAux fuel r with
          | none => none
          | some (fs, r') => some (f :: fs, r')
        else if c = '\n' then some ([f], r)
        else none

/-- Standard reader, all records. -/
def parseRowsAux : Nat → List Char → Option (List (List (List Char)))
  | _, [] => some []
  | 0, _ :: _ => none
  | Nat.succ fuel, c :: cs =>
    match parseRecordAux ((c :: cs).length + 1) (c :: cs) with
    | none => none
    | some (rr, rest) => (parseRowsAux fuel rest).map (rr :: ·)

/-- A standard delimited-text reader for `toCsv` output. -/
def parseCsv (s : List Char) : Option (List (List (List Char))) :=
  parseRowsAux s.length s

/-! ### Round-trip lemmas for the Export Formatter -/

theorem pq_step_quote (acc rest : List Char) :
    parseQuotedAux acc ('"' :: '"' :: rest) = parseQuotedAux (acc ++ ['"']) rest :=
  rfl

theorem pq_step_close_nil (acc : List Char) :
    parseQuotedAux acc ('"' :: []) = some (acc, []) :=
  rfl

theorem pq_step_close (acc : List Char) (c' : Char) (r' : List Char)
    (h : ¬ c' = '"') :
    parseQuotedAux acc ('"' :: c' :: r') = some (acc, c' :: r') := by
  show (if c' = '"' then parseQuotedAux (acc ++ ['"']) r'
    else some (acc, c' :: r')) = some (acc, c' :: r')
  exact if_neg h

theorem pq_step_other (acc : List Char) (c : Char) (rest : List Char)
    (h : ¬ c = '"') :
    parseQuotedAux acc (c :: rest) = parseQuotedAux (acc ++ [c]) rest := by
  rw [parseQuotedAux.eq_def]
  split
  · simp_all
  · rename_i h2
    injection h2 with h3 h4
    subst h3
    subst h4
    rw [if_neg h]

theorem parseQuotedAux_escape (f : List Char) : ∀ (acc rest : List Char),
    (∀ c₀, rest.head? = some c₀ → c₀ ≠ '"') →
    parseQuotedAux acc ((f.map csvEscapeChar).flatten ++ '"' :: rest)
      = some (acc ++ f, rest) := by
  induction f with
  | nil =>
    intro acc rest hrest
    simp only [List.map_nil, List.flatten_nil, List.nil_append]
    cases rest with
    | nil => simpa using pq_step_close_nil acc
    | cons c' r' =>
      rw [pq_step_close acc c' r' (hrest c' rfl)]
      simp
  | cons c cs ih =>
    intro acc rest hrest
    simp only [List.map_cons, List.flatten_cons, List.append_assoc]
    by_cases hc : c = '"'
    · subst hc
      rw [show csvEscapeChar '"' = ['"', '"'] from rfl]
      rw [show (['"', '"'] : List Char) ++
          ((cs.map csvEscapeChar).flatten ++ '"' :: rest)
          = '"' :: '"' :: ((cs.map csvEscapeChar).flatten ++ '"' :: rest)
          from rfl]
      rw [pq_step_quote, ih (acc ++ ['"']) rest hrest]
      simp
    · rw [show csvEscapeChar c = [c] from if_neg hc, List.singleton_append]
      rw [pq_step_other acc c _ hc, ih (acc ++ [c]) rest hrest]
      simp

theorem csvNeedsQuote_false_mem {f : List Char} (h : csvNeedsQuote f = false) :
    ∀ c ∈ f, c ≠ ',' ∧ c ≠ '"' ∧ c ≠ '\n' := by
  intro c hc
  rw [csvNeedsQuote, List.any_eq_false] at h
  have := h c hc
  simp only [Bool.or_eq_true, decide_eq_true_iff, not_or] at this
  exact ⟨this.1.1, this.1.2, this.2⟩

theorem notSepChar_of_clean {c : Char}
    (h : c ≠ ',' ∧ c ≠ '\n' ∧ c ≠ '\r') :
    notSepChar c = true := by
  rw [notSepChar]
  simp [h.1, h.2.1, h.2.2]

theorem parseField_escape (f : List Char) (d : Char) (rest : List Char)
    (hd : d = ',' ∨ d = '\n')
    (hcr : '\r' ∈ f → csvNeedsQuote f = true) :
    parseField (csvField f ++ d :: rest) = some (f, d :: rest) := by
  have hdne : d ≠ '"' := by rcases hd with rfl | rfl <;> decide
  have hdsep : ¬ notSepChar d = true := by
    rcases hd with rfl | rfl <;> decide
  rw [csvField]
  by_cases hq : csvNeedsQuote f = true
  · rw [if_pos hq]
    rw [show ('"' :: (f.map csvEscapeChar).flatten ++ ['"']) ++ d :: rest
        = '"' :: ((f.map csvEscapeChar).flatten ++ '"' :: d :: rest) by
      simp]
    rw [parseField, if_pos rfl]
    rw [parseQuotedAux_escape f [] (d :: rest)
      (fun c₀ h₀ => by
        simp only [List.head?_cons, Option.some.injEq] at h₀
        rw [← h₀]
        exact hdne)]
    simp
  · rw [if_neg hq]
    have hmem := csvNeedsQuote_false_mem (Bool.eq_false_iff.2 hq)
    have hnoCR : ∀ a ∈ f, a ≠ '\r' :=
      fun a ha haeq => hq (hcr (haeq ▸ ha))
    have hclean : ∀ a ∈ f, notSepChar a = true :=
      fun a ha => notSepChar_of_clean
        ⟨(hmem a ha).1, (hmem a ha).2.2, hnoCR a ha⟩
    cases f with
    | nil =>
      rw [List.nil_append, parseField, if_neg hdne,
        List.takeWhile_cons_of_neg hdsep, List.dropWhile_cons_of_neg hdsep]
    | cons c f' =>
      have hcq : ¬ c = '"' := (hmem c (List.mem_cons_self c f')).2.1
      rw [List.cons_append, parseField, if_neg hcq, ← List.cons_append]
      rw [List.takeWhile_append_of_pos hclean,
        List.dropWhile_append_of_pos hclean,
        List.takeWhile_cons_of_neg hdsep, List.dropWhile_cons_of_neg hdsep]
      simp

theorem csvRecord_length (rr : List (List Char)) :
    rr.length ≤ (csvRecord rr).length + 1 := by
  induction rr with
  | nil => simp [csvRecord]
  | cons f fs ih =>
    cases fs with
    | nil => simp [csvRecord]
    | cons g fs' =>
      rw [csvRecord]
      simp only [List.length_cons, List.length_append] at ih ⊢
      omega

theorem parseRecordAux_record : ∀ (rr : List (List Char)) (fuel : Nat)
    (rest : List Char), rr ≠ [] → rr.length ≤ fuel →
    (∀ f ∈ rr, '\r' ∈ f → csvNeedsQuote f = true) →
    parseRecordAux fuel (csvRecord rr ++ '\n' :: rest) = some (rr, rest) := by
  intro rr
  induction rr with
  | nil => intro _ _ h _ _; exact absurd rfl h
  | cons f fs ih =>
    intro fuel rest _ hfuel hcr
    cases fuel with
    | zero => simp at hfuel
    | succ fuel' =>
      cases fs with
      | nil =>
        rw [csvRecord, parseRecordAux,
          parseField_escape f '\n' rest (Or.inr rfl)
            (hcr f (List.mem_cons_self f []))]
        rfl
      | cons g fs' =>
        rw [csvRecord, List.append_assoc, List.cons_append, parseRecordAux,
          parseField_escape f ',' (csvRecord (g :: fs') ++ '\n' :: rest)
            (Or.inl rfl) (hcr f (List.mem_cons_self f (g :: fs')))]
        dsimp only
        rw [ih fuel' rest (List.cons_ne_nil g fs')
            (by simp at hfuel ⊢; omega)
            (fun x hx => hcr x (List.mem_cons_of_mem f hx))]
        rfl

theorem parseRowsAux_toCsv : ∀ (t : List (List (List Char))) (fuel : Nat),
    (∀ rr ∈ t, rr ≠ []) → (toCsv t).length ≤ fuel →
    (∀ rr ∈ t, ∀ f ∈ rr, '\r' ∈ f → csvNeedsQuote f = true) →
    parseRowsAux fuel (toCsv t) = some t := by
  intro t
  induction t with
  | nil =>
    intro fuel _ _ _
    rw [show toCsv [] = [] from rfl]
    cases fuel <;> rfl
  | cons rr t' ih =>
    intro fuel hne hfuel hcr
    have htc : toCsv (rr :: t') = csvRecord rr ++ '\n' :: toCsv t' := by
      rw [toCsv, List.map_cons, List.flatten_cons, List.append_assoc]
      rfl
    rw [htc] at hfuel ⊢
    have hlen : (csvRecord rr ++ '\n' :: toCsv t').length
        = (csvRecord rr).length + 1 + (toCsv t').length := by
      simp [List.length_append]
      omega
    cases fuel with
    | zero =>
      rw [hlen] at hfuel
      omega
    | succ fuel' =>
      rcases hcs : csvRecord rr ++ '\n' :: toCsv t' with _ | ⟨c, cs⟩
      · exact absurd hcs (by simp)
      · rw [parseRowsAux, ← hcs,
          parseRecordAux_record rr ((csvRecord rr ++ '\n' :: toCsv t').length
              + 1) (toCsv t') (hne rr (List.mem_cons_self rr t'))
            (by rw [hlen]; have := csvRecord_length rr; omega)
            (hcr rr (List.mem_cons_self rr t'))]
        dsimp only
        rw [ih fuel' (fun x hx => hne x (List.mem_cons_of_mem rr hx))
            (by rw [hlen] at hfuel; omega)
            (fun x hx => hcr x (List.mem_cons_of_mem rr hx))]
        rfl

/-- A grid whose second row holds a bare carriage return with no comma,
quote or newline beside it, so minimal quoting leaves the field bare. -/
def csvCrExample : List (List (List Char)) :=
  [[['a']], [['x', '\r', 'y']]]

/-- Counterexample to the unconditional round-trip: the field
`x\x0dy` contains no delimiter, quote or `'\n'`, so the writer emits
it unquoted; a standard reader then ends the field at the stray
carriage return and rejects the record, recovering nothing — let alone
the original grid. -/
theorem csv_roundtrip_counterexample :
    parseCsv (convert_df_to_csv csvCrExample) = none ∧
    (none : Option (List (List (List Char)))) ≠ some csvCrExample :=
  ⟨by decide, by decide⟩

/-- C7 (corrected): the Export Formatter is a pure function of the cell
grid (equal inputs give bit-for-bit equal output), and its output
round-trips — a standard delimited-text reader recovers exactly the
original header and rows — provided every row has at least one column
(a zero-column row is not representable in delimited text) **and** no
field contains a carriage return unless that field is quoted anyway:
minimal quoting with the POSIX `"\n"` line terminator leaves a bare
`'\x0d'` unquoted, and such output does not round-trip. -/
theorem convert_df_to_csv_roundtrip (t₁ t₂ : List (List (List Char))) :
    (t₁ = t₂ → convert_df_to_csv t₁ = convert_df_to_csv t₂) ∧
    ((∀ rr ∈ t₁, rr ≠ []) →
      (∀ rr ∈ t₁, ∀ f ∈ rr, '\r' ∈ f → csvNeedsQuote f = true) →
      parseCsv (convert_df_to_csv t₁) = some t₁) := by
  refine ⟨fun h => by rw [h], fun h hcr => ?_⟩
  rw [convert_df_to_csv, parseCsv]
  exact parseRowsAux_toCsv t₁ (toCsv t₁).length h (le_refl _) hcr

/-- A concrete grid: a two-column header, a row whose second field holds
a comma, a quote, a newline and a carriage return (quoted because of its
other characters), and a row with an empty first field. -/
def csvExample : List (List (List Char)) :=
  [[['a'], ['b']],
   [['1'], [',', '"', '\n', '\r', 'z']],
   [[], ['p']]]

/-- Witness for C7 at the concrete grid: quoting round-trips commas,
quotes, line breaks and quoted carriage returns exactly. -/
theorem convert_df_to_csv_roundtrip_witness :
    convert_df_to_csv csvExample = convert_df_to_csv csvExample ∧
    parseCsv (convert_df_to_csv csvExample) = some csvExample :=
  ⟨(convert_df_to_csv_roundtrip csvExample csvExample).1 rfl,
   (convert_df_to_csv_roundtrip csvExample csvExample).2 (by decide) (by decide)⟩
